import Mathlib

/-!
Verification of the meetingminutes PC-worker post-recognition pipeline.

The Python sources are embedded shallowly: times and confidences become
exact rationals, Python strings become lists of characters, fallible
operations return `Except`, and the imperative accumulation loops become
structural recursions over the input lists.
-/

set_option maxHeartbeats 1000000
set_option maxRecDepth 4096

namespace MeetingMinutes

/-- Text is modelled as a list of characters (Python `str`). -/
abbrev Text := List Char

/-- Python `str.lstrip()` with no argument: drop leading whitespace. -/
def lstrip (t : Text) : Text := t.dropWhile Char.isWhitespace

/-- Python `str.rstrip()` with no argument: drop trailing whitespace. -/
def rstrip (t : Text) : Text := (t.reverse.dropWhile Char.isWhitespace).reverse

/-- Python `str.strip()` with no argument: drop whitespace on both ends. -/
def pyStrip (t : Text) : Text := rstrip (lstrip t)

/-! ## Segment merger (faster_whisper_engine.py, `_merge_segments`) -/

/-- Terminal punctuation recognised by the segment merger. -/
def terminalPunct : List Char := ['.', '?', '!', '。', '？', '！']

/-- Python `current["text"].rstrip().endswith((".", "?", "!", "。", "？", "！"))`. -/
def endsWithTerminalPunct (t : Text) : Bool :=
  match (rstrip t).getLast? with
  | some c => c ∈ terminalPunct
  | none => false

/-- The slice of `FasterWhisperConfig` used by the merger
(defaults: gap threshold 0.5 s, maximum merged duration 30 s). -/
structure FWConfig where
  merge_gap_threshold : ℚ
  merge_max_duration : ℚ
  deriving DecidableEq

/-- Default merger configuration from `FasterWhisperConfig`. -/
def defaultFWConfig : FWConfig :=
  { merge_gap_threshold := 1/2, merge_max_duration := 30 }

/-- A recognition unit: one entry of the `segments` list handed to
`_merge_segments` (and also the shape of the working dict `current`). -/
structure RecUnit where
  start : ℚ
  stop : ℚ
  text : Text
  confidence : Option ℚ
  deriving DecidableEq

/-- The merge condition computed in the body of `_merge_segments`:
gap within threshold, merged span within maximum, and the accumulated
text does not end in terminal punctuation. -/
def shouldMergeUnits (cfg : FWConfig) (current seg : RecUnit) : Prop :=
  seg.start - current.stop ≤ cfg.merge_gap_threshold ∧
  seg.stop - current.start ≤ cfg.merge_max_duration ∧
  endsWithTerminalPunct current.text = false

instance (cfg : FWConfig) (current seg : RecUnit) :
    Decidable (shouldMergeUnits cfg current seg) := by
  unfold shouldMergeUnits; infer_instance

/-- Absorbing `seg` into `current` (the `should_merge` branch):
the end time advances, texts are joined as `rstrip current + " " + lstrip seg`,
and the confidence becomes the pairwise average when both are present,
otherwise the accumulated confidence is kept. -/
def combineUnits (current seg : RecUnit) : RecUnit :=
  { start := current.start
    stop := seg.stop
    text := rstrip current.text ++ ' ' :: lstrip seg.text
    confidence :=
      match current.confidence, seg.confidence with
      | some a, some b => some ((a + b) / 2)
      | a, _ => a }

/-- The loop of `_merge_segments`: `current` is the working dict,
the argument list is the remaining input. -/
def mergeLoop (cfg : FWConfig) (current : RecUnit) : List RecUnit → List RecUnit
  | [] => [current]
  | seg :: rest =>
    if shouldMergeUnits cfg current seg then
      mergeLoop cfg (combineUnits current seg) rest
    else
      current :: mergeLoop cfg seg rest

/-- Model of `_merge_segments` from faster_whisper_engine.py. -/
def mergeSegments (cfg : FWConfig) : List RecUnit → List RecUnit
  | [] => []
  | s :: rest => mergeLoop cfg s rest

/-- The merge rule as the specification words it: gap at most the
threshold, merged span at most the maximum, and the earlier unit's text
does not end in one of the terminal punctuation marks. -/
def specMergeRule (gapThreshold maxDuration : ℚ) (earlier later : RecUnit) : Prop :=
  later.start - earlier.stop ≤ gapThreshold ∧
  later.stop - earlier.start ≤ maxDuration ∧
  ¬ ∃ c ∈ terminalPunct, (rstrip earlier.text).getLast? = some c

instance (g m : ℚ) (a b : RecUnit) : Decidable (specMergeRule g m a b) := by
  unfold specMergeRule; infer_instance

/-- Left fold of the merger's confidence rule over the confidences of the
units absorbed into one output segment. -/
def runningConf (acc : Option ℚ) : List (Option ℚ) → Option ℚ
  | [] => acc
  | c :: cs =>
    runningConf
      (match acc, c with
       | some a, some b => some ((a + b) / 2)
       | a, _ => a) cs

/-- Collapsing a whole run of units into one output segment. -/
def collapseRun (head : RecUnit) (absorbed : List RecUnit) : RecUnit :=
  absorbed.foldl combineUnits head

/-- Concatenation of a partition into runs back into a unit list. -/
def runsJoin (runs : List (RecUnit × List RecUnit)) : List RecUnit :=
  runs.foldr (fun r acc => r.1 :: r.2 ++ acc) []

/-- Scenario input of the merger test case:
units (0,5,"A"), (5,9,"A"), (9,20,"B") with no confidences. -/
def scenarioUnits : List RecUnit :=
  [⟨0, 5, ['A'], none⟩, ⟨5, 9, ['A'], none⟩, ⟨9, 20, ['B'], none⟩]

/-- Three-unit input whose confidences 0, 0, 1 separate the running
pairwise average from the arithmetic mean. -/
def confUnits : List RecUnit :=
  [⟨0, 1, ['a'], some 0⟩, ⟨1, 2, ['b'], some 0⟩, ⟨2, 3, ['c'], some 1⟩]

/-! ## Alignment engine (speaker_diarization.py, `align_with_transcript`) -/

/-- A transcript segment (models.TranscriptSegment, the fields this
pipeline reads or writes). -/
structure TranscriptSegment where
  meeting_id : String
  start_time : ℚ
  end_time : ℚ
  text : Text
  confidence : Option ℚ
  speaker_label : Option String
  speaker_id : Option String
  deriving DecidableEq

/-- One labelled diarization track, in the order `itertracks` yields them. -/
structure DiarInterval where
  start : ℚ
  stop : ℚ
  label : String
  deriving DecidableEq

/-- Signed overlap of a track with the pyannote segment (a, b): the
intersection `track & segment` spans max(starts) to min(ends), and is
truthy exactly when this quantity is positive. -/
def overlapLen (itv : DiarInterval) (a b : ℚ) : ℚ :=
  min itv.stop b - max itv.start a

/-- The best-speaker loop of `align_with_transcript`; the accumulator is
the pair (best_speaker, best_overlap). -/
def alignFold (a b dur : ℚ) (acc : Option String × ℚ) :
    List DiarInterval → Option String × ℚ
  | [] => acc
  | itv :: rest =>
    alignFold a b dur
      (if 0 < overlapLen itv a b then
        (if acc.2 < overlapLen itv a b / dur then
          (some itv.label, overlapLen itv a b / dur)
        else acc)
      else acc) rest

/-- The speaker label the per-segment loop assigns to the segment (a, b). -/
def bestSpeaker (diar : List DiarInterval) (a b : ℚ) : Option String :=
  (alignFold a b (b - a) (none, 0) diar).1

/-- Model of `align_with_transcript`: every segment is rebuilt with the
best-overlap speaker label (and speaker_id reset to none). -/
def align_with_transcript (diar : List DiarInterval)
    (segs : List TranscriptSegment) : List TranscriptSegment :=
  segs.map fun s =>
    { s with
      speaker_label := bestSpeaker diar s.start_time s.end_time
      speaker_id := none }

/-- Overlap duration as the specification words it:
max(0, min(ends) - max(starts)). -/
def specOverlap (itv : DiarInterval) (a b : ℚ) : ℚ := max 0 (overlapLen itv a b)

/-- Overlap ratio per the specification: overlap / segment duration. -/
def ratioOf (itv : DiarInterval) (a b : ℚ) : ℚ := specOverlap itv a b / (b - a)

/-- Highest overlap ratio over the track list (0 when the list is empty). -/
def maxRatioOf (diar : List DiarInterval) (a b : ℚ) : ℚ :=
  diar.foldr (fun itv m => max (ratioOf itv a b) m) 0

/-- The label the specification assigns: the first-seen track attaining
the highest ratio when that ratio is positive, and none when the overlap
with every track is zero. -/
def specLabel (diar : List DiarInterval) (a b : ℚ) : Option String :=
  if 0 < maxRatioOf diar a b then
    (diar.find? fun itv => ratioOf itv a b == maxRatioOf diar a b).map
      DiarInterval.label
  else none

/-- Scenario diarization: S1 on (0,6), S2 on (6,20). -/
def scenarioDiar : List DiarInterval := [⟨0, 6, "S1"⟩, ⟨6, 20, "S2"⟩]

/-! ## Speaker matcher (speaker_matcher.py) -/

/-- Model of `update_speaker_embedding`: given the stored embedding, a new
vector, and a weight, return the vector that ends up stored (or an error).
The new vector must be 768-dimensional and the weight must lie in [0,1];
the Python falsiness test `if not existing_embedding` treats both None and
an empty list as absent and stores the new vector as-is; otherwise the
numpy expression `new * weight + old * (1 - weight)` is stored (a stored
vector of a different length makes the numpy broadcast fail, which
surfaces as an error). -/
def update_speaker_embedding (existing : Option (List ℚ)) (newEmb : List ℚ)
    (weight : ℚ) : Except String (List ℚ) :=
  if newEmb.length ≠ 768 then .error "dimension"
  else if ¬(0 ≤ weight ∧ weight ≤ 1) then .error "weight"
  else
    match existing with
    | none => .ok newEmb
    | some old =>
      if old = [] then .ok newEmb
      else if old.length ≠ newEmb.length then .error "broadcast"
      else .ok (List.zipWith (fun n o => n * weight + o * (1 - weight)) newEmb old)

/-- Dot product as `np.dot` computes it on equal-length 1-d arrays. -/
def dotp (v w : List ℝ) : ℝ := (List.zipWith (fun x y => x * y) v w).sum

/-- Euclidean norm as `np.linalg.norm`: square root of the sum of squares. -/
noncomputable def norm2 (v : List ℝ) : ℝ := Real.sqrt (dotp v v)

/-- Model of `calculate_similarity`: mismatched lengths make `np.dot`
raise and the catch-all handler turns that into 0.0; a zero norm returns
0.0; otherwise the cosine is clamped into [0, 1]. -/
noncomputable def calculate_similarity (v w : List ℝ) : ℝ :=
  if v.length ≠ w.length then 0
  else if norm2 v = 0 ∨ norm2 w = 0 then 0
  else max 0 (min 1 (dotp v w / (norm2 v * norm2 w)))

/-! ## Text chunker (text_chunker.py) -/

/-- Configuration for text chunking (ChunkingConfig). -/
structure ChunkingConfig where
  min_chunk_duration : ℚ
  target_chunk_duration : ℚ
  max_chunk_duration : ℚ
  min_chunk_chars : ℕ
  respect_speaker_changes : Bool
  respect_sentence_boundaries : Bool
  deriving DecidableEq

/-- Default chunking configuration: minimum 3 s, target 7 s, maximum 12 s,
minimum 20 characters, speaker changes and sentence boundaries respected. -/
def defaultChunkingConfig : ChunkingConfig :=
  { min_chunk_duration := 3
    target_chunk_duration := 7
    max_chunk_duration := 12
    min_chunk_chars := 20
    respect_speaker_changes := true
    respect_sentence_boundaries := true }

/-- A chunk of transcript for embedding and search (TranscriptChunk). -/
structure TranscriptChunk where
  chunk_index : ℕ
  meeting_id : String
  user_id : String
  start_time : ℚ
  end_time : ℚ
  text : Text
  speaker_id : Option String
  speaker_label : Option String
  deriving DecidableEq

/-- Python `confidence or 1.0`: both None and 0.0 are falsy and yield 1. -/
def confOr1 (c : Option ℚ) : ℚ :=
  match c with
  | none => 1
  | some x => if x = 0 then 1 else x

/-- The loop of `_merge_short_segments`: a following segment is absorbed
when it has the same speaker id and label, the accumulated segment is
still shorter than the minimum chunk duration, and the combined span
stays within the maximum chunk duration; texts join as
`f"(current) (next)".strip()` and the confidence becomes the minimum of
the two (with falsy confidences read as 1.0). -/
def mergeShortLoop (cfg : ChunkingConfig) (current : TranscriptSegment) :
    List TranscriptSegment → List TranscriptSegment
  | [] => [current]
  | next :: rest =>
    if current.speaker_id = next.speaker_id ∧
       current.speaker_label = next.speaker_label ∧
       current.end_time - current.start_time < cfg.min_chunk_duration ∧
       next.end_time - current.start_time ≤ cfg.max_chunk_duration then
      mergeShortLoop cfg
        { current with
          end_time := next.end_time
          text := pyStrip (current.text ++ ' ' :: next.text)
          confidence :=
            some (min (confOr1 current.confidence) (confOr1 next.confidence)) }
        rest
    else
      current :: mergeShortLoop cfg next rest

/-- Model of `_merge_short_segments`. -/
def merge_short_segments (cfg : ChunkingConfig) :
    List TranscriptSegment → List TranscriptSegment
  | [] => []
  | s :: rest => mergeShortLoop cfg s rest

/-- Characters the KOREAN_SENTENCE_ENDINGS regex accepts when followed by
whitespace or the end of the string: terminal punctuation or one of the
Korean sentence-ending syllables 다 요 죠 네 까. -/
def sentenceEndKeys : List Char :=
  ['.', '!', '?', '。', '！', '？', '다', '요', '죠', '네', '까']

/-- Search of the KOREAN_SENTENCE_ENDINGS regex over a string: some
position holds a key character followed by whitespace or the end. -/
def koreanEndingSearch : Text → Bool
  | [] => false
  | [c] => c ∈ sentenceEndKeys
  | c :: d :: rest =>
    (decide (c ∈ sentenceEndKeys) && d.isWhitespace) ||
      koreanEndingSearch (d :: rest)

/-- Model of `_is_sentence_end`: strip the text; accept when the last
character is terminal punctuation, otherwise run the Korean-ending search
on the last two characters. -/
def is_sentence_end (t : Text) : Bool :=
  let s := pyStrip t
  match s.getLast? with
  | none => false
  | some c =>
    if c ∈ (['.', '!', '?', '。', '！', '？'] : List Char) then true
    else koreanEndingSearch (s.drop (s.length - 2))

/-- Accumulator state of the `_create_chunks` loop. -/
structure ChunkState where
  chunks : List TranscriptChunk
  chunk_index : ℕ
  current_texts : List Text
  current_start : Option ℚ
  current_end : ℚ
  current_speaker_id : Option String
  current_speaker_label : Option String

/-- Initial accumulator of `_create_chunks`. -/
def initChunkState : ChunkState :=
  { chunks := []
    chunk_index := 0
    current_texts := []
    current_start := none
    current_end := 0
    current_speaker_id := none
    current_speaker_label := none }

/-- The chunk built from the current accumulation (texts joined by
single spaces). -/
def mkCurrentChunk (meeting user : String) (st : ChunkState) : TranscriptChunk :=
  { chunk_index := st.chunk_index
    meeting_id := meeting
    user_id := user
    start_time := st.current_start.getD 0
    end_time := st.current_end
    text := List.intercalate [' '] st.current_texts
    speaker_id := st.current_speaker_id
    speaker_label := st.current_speaker_label }

/-- Finalizing the current chunk and resetting the accumulator. -/
def flushState (meeting user : String) (st : ChunkState) : ChunkState :=
  { chunks := st.chunks ++ [mkCurrentChunk meeting user st]
    chunk_index := st.chunk_index + 1
    current_texts := []
    current_start := none
    current_end := st.current_end
    current_speaker_id := none
    current_speaker_label := none }

/-- Python `segment.speaker_id != current_speaker_id` guarded by the
configuration flag and by `current_speaker_id is not None`. -/
def speakerChanged (cfg : ChunkingConfig) (st : ChunkState)
    (seg : TranscriptSegment) : Bool :=
  cfg.respect_speaker_changes && st.current_speaker_id.isSome &&
    decide (seg.speaker_id ≠ st.current_speaker_id)

/-- Python `segment.end_time - current_start > max_chunk_duration` when a
chunk is open, False otherwise. -/
def wouldExceedMax (cfg : ChunkingConfig) (st : ChunkState)
    (seg : TranscriptSegment) : Bool :=
  match st.current_start with
  | some s => decide (cfg.max_chunk_duration < seg.end_time - s)
  | none => false

/-- Python `current_end - (current_start or 0) >= target_chunk_duration`. -/
def reachedTarget (cfg : ChunkingConfig) (st : ChunkState) : Bool :=
  decide (cfg.target_chunk_duration ≤ st.current_end - st.current_start.getD 0)

/-- The finalize decision of `_create_chunks`. -/
def shouldFinalize (cfg : ChunkingConfig) (st : ChunkState)
    (seg : TranscriptSegment) : Bool :=
  !st.current_texts.isEmpty &&
    (speakerChanged cfg st seg || wouldExceedMax cfg st seg ||
      (reachedTarget cfg st && is_sentence_end (st.current_texts.getLast?.getD [])))

/-- Adding the segment to the accumulator: an empty accumulator adopts the
segment's start time and speaker, then the text is appended and the end
time advanced. -/
def pushSeg (st : ChunkState) (seg : TranscriptSegment) : ChunkState :=
  let st' :=
    match st.current_start with
    | none =>
      { st with
        current_start := some seg.start_time
        current_speaker_id := seg.speaker_id
        current_speaker_label := seg.speaker_label }
    | some _ => st
  { st' with
    current_texts := st'.current_texts ++ [seg.text]
    current_end := seg.end_time }

/-- One iteration of the `_create_chunks` loop. -/
def chunkStep (cfg : ChunkingConfig) (meeting user : String)
    (st : ChunkState) (seg : TranscriptSegment) : ChunkState :=
  pushSeg (if shouldFinalize cfg st seg then flushState meeting user st else st)
    seg

/-- Model of `_create_chunks`: fold the loop over the segments, then flush
the final partial accumulation if any. -/
def create_chunks (cfg : ChunkingConfig) (meeting user : String)
    (segs : List TranscriptSegment) : List TranscriptChunk :=
  let st := segs.foldl (chunkStep cfg meeting user) initChunkState
  if st.current_texts ≠ [] ∧ st.current_start ≠ none then
    st.chunks ++ [mkCurrentChunk meeting user st]
  else st.chunks

/-- Model of `chunk_transcript` / `chunk_segments`: empty input yields no
chunks, otherwise merge short same-speaker segments and create chunks. -/
def chunk_segments (cfg : ChunkingConfig) (meeting user : String)
    (segs : List TranscriptSegment) : List TranscriptChunk :=
  if segs = [] then []
  else create_chunks cfg meeting user (merge_short_segments cfg segs)

/-- A single 20-second segment: longer than the default 12 s maximum
chunk duration. -/
def overlongSeg : TranscriptSegment := ⟨"m", 0, 20, ['h', 'i'], none, none, none⟩

/-- A single 5-second segment with a clean text, within the default
maximum chunk duration. -/
def shortSeg : TranscriptSegment := ⟨"m", 0, 5, ['h', 'i'], none, none, none⟩

/-- Two same-speaker short segments whose first text carries a leading
space, which the merge step's strip removes. -/
def paddedSegs : List TranscriptSegment :=
  [⟨"m", 0, 1, [' ', 'A'], none, none, none⟩,
   ⟨"m", 1, 2, ['B'], none, none, none⟩]

/-! ## Pipeline orchestrator (stt_pipeline.py, `process_audio`) -/

/-- A speaker voice embedding (models.SpeakerEmbedding). -/
structure SpeakerEmbedding where
  speaker_id : String
  embedding : List ℚ
  sample_count : ℕ
  confidence : Option ℚ
  deriving DecidableEq

/-- A speaker profile assembled by `_create_speaker_objects`. -/
structure Speaker where
  id : String
  name : Option String
  user_id : Option String
  embedding : Option SpeakerEmbedding
  meeting_ids : List String
  deriving DecidableEq

/-- The aggregate `PipelineResult` (the fields the model tracks). -/
structure PipelineResult where
  meeting_id : String
  segments : List TranscriptSegment
  speakers : List Speaker
  speaker_embeddings : List (String × SpeakerEmbedding)
  average_confidence : Option ℚ
  num_speakers_detected : ℕ
  alignment_rate : ℚ
  deriving DecidableEq

/-- Distinct diarization labels, as `diarization.labels()` yields them. -/
def diarLabels (diar : List DiarInterval) : List String :=
  (diar.map DiarInterval.label).dedup

/-- Model of `_create_speaker_objects`: one Speaker per diarization label,
with the embedding looked up in the (possibly empty) embedding map. -/
def create_speaker_objects (diar : List DiarInterval)
    (embs : List (String × SpeakerEmbedding)) (meeting : String) :
    List Speaker :=
  (diarLabels diar).map fun label =>
    { id := label
      name := none
      user_id := none
      embedding := (embs.find? fun p => p.1 == label).map Prod.snd
      meeting_ids := [meeting] }

/-- Model of `_calculate_average_confidence`: mean over the present
confidences, None when no segment carries one. -/
def calculate_average_confidence (segs : List TranscriptSegment) : Option ℚ :=
  let confs := (segs.map TranscriptSegment.confidence).reduceOption
  if confs = [] then none else some (confs.sum / confs.length)

/-- Model of `_calculate_alignment_rate`: fraction of segments carrying a
speaker label, 0 for an empty list. -/
def calculate_alignment_rate (segs : List TranscriptSegment) : ℚ :=
  if segs = [] then 0
  else ((segs.filter fun s => s.speaker_label.isSome).length : ℚ) / segs.length

/-- Pipeline stage failures. -/
inductive StageError
  | transcription
  | diarization
  | embedding
  deriving DecidableEq

/-- Model of `process_audio` after preprocessing: the transcription and
diarization outcomes propagate failure, alignment is the pure
`align_with_transcript`, embedding extraction sits in its own try/except
whose failure leaves the embedding map empty, and the speakers, transcript
and quality metrics are then assembled. -/
def process_audio (meeting : String)
    (transcribeRes : Except StageError (List TranscriptSegment))
    (diarizeRes : Except StageError (List DiarInterval))
    (extractRes : Except StageError (List (String × SpeakerEmbedding))) :
    Except StageError PipelineResult := do
  let tsegs ← transcribeRes
  let diar ← diarizeRes
  let aligned := align_with_transcript diar tsegs
  let embs :=
    match extractRes with
    | .ok m => m
    | .error _ => []
  let speakers := create_speaker_objects diar embs meeting
  .ok { meeting_id := meeting
        segments := aligned
        speakers := speakers
        speaker_embeddings := embs
        average_confidence := calculate_average_confidence aligned
        num_speakers_detected := (diarLabels diar).length
        alignment_rate := calculate_alignment_rate aligned }

/-! ## Theorems -/

theorem shouldMergeUnits_iff_spec (cfg : FWConfig) (a b : RecUnit) :
    shouldMergeUnits cfg a b ↔
      specMergeRule cfg.merge_gap_threshold cfg.merge_max_duration a b := by
  unfold shouldMergeUnits specMergeRule endsWithTerminalPunct
  cases h : (rstrip a.text).getLast? with
  | none => simp [h]
  | some ch => simp [h]

theorem runsJoin_cons (r : RecUnit × List RecUnit)
    (rs : List (RecUnit × List RecUnit)) :
    runsJoin (r :: rs) = r.1 :: r.2 ++ runsJoin rs := rfl

theorem mergeSegments_scenarioUnits_eval :
    mergeSegments defaultFWConfig scenarioUnits =
      [⟨0, 20, ['A', ' ', 'A', ' ', 'B'], none⟩] := by
  norm_num [mergeSegments, scenarioUnits, mergeLoop, shouldMergeUnits, defaultFWConfig,
    endsWithTerminalPunct, rstrip, lstrip, terminalPunct, combineUnits]
  simp +decide [List.dropWhile_cons]

theorem mergeSegments_confUnits_eval :
    mergeSegments defaultFWConfig confUnits =
      [⟨0, 3, ['a', ' ', 'b', ' ', 'c'], some (1/2)⟩] := by
  norm_num [mergeSegments, confUnits, mergeLoop, shouldMergeUnits, defaultFWConfig,
    endsWithTerminalPunct, rstrip, lstrip, terminalPunct, combineUnits]
  simp +decide [List.dropWhile_cons]

theorem collapseRun_confidence (l : List RecUnit) :
    ∀ acc : RecUnit, (collapseRun acc l).confidence =
      runningConf acc.confidence (l.map RecUnit.confidence) := by
  induction l with
  | nil => intro acc; rfl
  | cons x xs ih =>
      intro acc
      show (collapseRun (combineUnits acc x) xs).confidence = _
      rw [ih (combineUnits acc x)]
      rfl

/-- C2: two adjacent units are merged exactly when the gap is within the
threshold, the merged span is within the maximum duration, and the earlier
accumulated text does not end in terminal punctuation; an empty input
yields an empty output and a single unit passes through unchanged. -/
theorem merger_merges_iff_gap_span_punct (cfg : FWConfig) (c s u : RecUnit)
    (rest : List RecUnit) :
    (shouldMergeUnits cfg c s ↔
      specMergeRule cfg.merge_gap_threshold cfg.merge_max_duration c s) ∧
    mergeLoop cfg c (s :: rest) =
      (if specMergeRule cfg.merge_gap_threshold cfg.merge_max_duration c s then
        mergeLoop cfg (combineUnits c s) rest
      else c :: mergeLoop cfg s rest) ∧
    mergeSegments cfg [] = [] ∧
    mergeSegments cfg [u] = [u] := by
  have hiff := shouldMergeUnits_iff_spec cfg c s
  refine ⟨hiff, ?_, rfl, rfl⟩
  by_cases hs : specMergeRule cfg.merge_gap_threshold cfg.merge_max_duration c s
  · rw [mergeLoop, if_pos (hiff.mpr hs), if_pos hs]
  · rw [mergeLoop, if_neg (fun hh => hs (hiff.mp hh)), if_neg hs]

/-- C3 counterexample: on the scenario units the merger does not produce
the two claimed segments (0,9,"A A") and (9,20,"B"); its output has a
single segment. -/
theorem merger_scenario_not_two_segments :
    mergeSegments defaultFWConfig scenarioUnits ≠
      [⟨0, 9, ['A', ' ', 'A'], none⟩, ⟨9, 20, ['B'], none⟩] ∧
    (mergeSegments defaultFWConfig scenarioUnits).length ≠ 2 := by
  rw [mergeSegments_scenarioUnits_eval]
  simp

/-- C3 (amended): on the scenario units all three units merge (the gap to
the third unit is 0 and the 20 s span is within the 30 s maximum), so the
merger produces the single segment (0,20,"A A B"). -/
theorem merger_scenario_single_segment :
    mergeSegments defaultFWConfig scenarioUnits =
      [⟨0, 20, ['A', ' ', 'A', ' ', 'B'], none⟩] :=
  mergeSegments_scenarioUnits_eval

/-- C4 (amended): the merger's output is the collapse of a partition of
its input into consecutive runs, and each output segment's confidence is
the left-nested running pairwise average of its run's confidences
(a missing confidence on either side leaves the accumulator unchanged),
not the arithmetic mean. -/
theorem merger_confidence_running_average (cfg : FWConfig) (c : RecUnit)
    (rest : List RecUnit) :
    ∃ runs : List (RecUnit × List RecUnit),
      runsJoin runs = c :: rest ∧
      mergeLoop cfg c rest = runs.map (fun r => collapseRun r.1 r.2) ∧
      ∀ r ∈ runs, (collapseRun r.1 r.2).confidence =
        runningConf r.1.confidence (r.2.map RecUnit.confidence) := by
  induction rest generalizing c with
  | nil =>
      refine ⟨[(c, [])], by simp [runsJoin], by simp [mergeLoop, collapseRun], ?_⟩
      intro r _
      exact collapseRun_confidence r.2 r.1
  | cons s rest ih =>
      by_cases h : shouldMergeUnits cfg c s
      · obtain ⟨runs, hjoin, hmap, _⟩ := ih (combineUnits c s)
        cases runs with
        | nil => simp [runsJoin] at hjoin
        | cons r rs =>
            obtain ⟨d, sub⟩ := r
            rw [runsJoin_cons] at hjoin
            injection hjoin with hd htail
            simp only [List.append_eq] at htail
            dsimp only at hd htail
            refine ⟨(c, s :: sub) :: rs, ?_, ?_, ?_⟩
            · rw [runsJoin_cons]
              simp only [List.cons_append]
              rw [htail]
            · rw [mergeLoop, if_pos h, hmap]
              have hcol : collapseRun c (s :: sub) = collapseRun d sub := by
                rw [hd]; rfl
              simp [hcol]
            · intro r _
              exact collapseRun_confidence r.2 r.1
      · obtain ⟨runs, hjoin, hmap, _⟩ := ih s
        refine ⟨(c, []) :: runs, ?_, ?_, ?_⟩
        · rw [runsJoin_cons, hjoin]
          rfl
        · rw [mergeLoop, if_neg h, hmap]
          rfl
        · intro r _
          exact collapseRun_confidence r.2 r.1

/-- C4 counterexample: merging three units with confidences 0, 0, 1
yields confidence 1/2 (the running pairwise average), not the arithmetic
mean 1/3. -/
theorem merger_confidence_not_mean :
    (mergeSegments defaultFWConfig confUnits).map RecUnit.confidence =
      [some (1/2)] ∧
    (mergeSegments defaultFWConfig confUnits).map RecUnit.confidence ≠
      [some ((0 + 0 + 1) / 3)] := by
  rw [mergeSegments_confUnits_eval]
  norm_num

theorem maxRatioOf_cons (itv : DiarInterval) (rest : List DiarInterval)
    (a b : ℚ) :
    maxRatioOf (itv :: rest) a b = max (ratioOf itv a b) (maxRatioOf rest a b) :=
  rfl

theorem ratioOf_nonneg (itv : DiarInterval) {a b : ℚ} (h : 0 < b - a) :
    0 ≤ ratioOf itv a b :=
  div_nonneg (le_max_left 0 _) h.le

theorem maxRatioOf_nonneg (diar : List DiarInterval) (a b : ℚ) :
    0 ≤ maxRatioOf diar a b := by
  induction diar with
  | nil => exact le_refl 0
  | cons itv rest ih =>
      rw [maxRatioOf_cons]
      exact le_trans ih (le_max_right _ _)

theorem ratioOf_of_pos {itv : DiarInterval} {a b : ℚ}
    (h : 0 < overlapLen itv a b) :
    ratioOf itv a b = overlapLen itv a b / (b - a) := by
  unfold ratioOf specOverlap
  rw [max_eq_right h.le]

theorem ratioOf_of_nonpos {itv : DiarInterval} {a b : ℚ}
    (h : overlapLen itv a b ≤ 0) :
    ratioOf itv a b = 0 := by
  unfold ratioOf specOverlap
  rw [max_eq_left h, zero_div]

theorem alignFold_eq (a b : ℚ) (diar : List DiarInterval) :
    ∀ (accL : Option String) (accR : ℚ), 0 ≤ accR →
      alignFold a b (b - a) (accL, accR) diar =
        if maxRatioOf diar a b ≤ accR then (accL, accR)
        else ((diar.find? fun itv => ratioOf itv a b == maxRatioOf diar a b).map
                DiarInterval.label, maxRatioOf diar a b) := by
  induction diar with
  | nil =>
      intro accL accR hacc
      rw [alignFold, if_pos]
      exact hacc
  | cons itv rest ih =>
      intro accL accR hacc
      rw [alignFold, maxRatioOf_cons]
      by_cases hro : ratioOf itv a b ≤ accR
      · have hstep :
            (if 0 < overlapLen itv a b then
              (if (accL, accR).2 < overlapLen itv a b / (b - a) then
                (some itv.label, overlapLen itv a b / (b - a))
              else (accL, accR))
            else (accL, accR)) = (accL, accR) := by
          by_cases hov : 0 < overlapLen itv a b
          · rw [if_pos hov, if_neg]
            rw [← ratioOf_of_pos hov]
            exact not_lt.mpr hro
          · rw [if_neg hov]
        rw [hstep, ih accL accR hacc]
        by_cases hM : maxRatioOf rest a b ≤ accR
        · rw [if_pos hM, if_pos (max_le hro hM)]
        · have hMlt : accR < maxRatioOf rest a b := not_le.mp hM
          have hmax : max (ratioOf itv a b) (maxRatioOf rest a b) =
              maxRatioOf rest a b :=
            max_eq_right (le_of_lt (lt_of_le_of_lt hro hMlt))
          rw [if_neg hM, if_neg (by rw [hmax]; exact hM), hmax,
            List.find?_cons_of_neg]
          simp only [beq_iff_eq]
          exact ne_of_lt (lt_of_le_of_lt hro hMlt)
      · have hrlt : accR < ratioOf itv a b := not_le.mp hro
        have hov : 0 < overlapLen itv a b := by
          by_contra hle
          rw [ratioOf_of_nonpos (not_lt.mp hle)] at hrlt
          exact absurd hrlt (not_lt.mpr hacc)
        have hr : ratioOf itv a b = overlapLen itv a b / (b - a) :=
          ratioOf_of_pos hov
        have hstep :
            (if 0 < overlapLen itv a b then
              (if (accL, accR).2 < overlapLen itv a b / (b - a) then
                (some itv.label, overlapLen itv a b / (b - a))
              else (accL, accR))
            else (accL, accR)) = (some itv.label, ratioOf itv a b) := by
          rw [if_pos hov, if_pos (by rw [← hr]; exact hrlt), ← hr]
        rw [hstep, ih (some itv.label) (ratioOf itv a b) (le_of_lt (lt_of_le_of_lt hacc hrlt))]
        by_cases hM : maxRatioOf rest a b ≤ ratioOf itv a b
        · have hmax : max (ratioOf itv a b) (maxRatioOf rest a b) =
              ratioOf itv a b := max_eq_left hM
          rw [if_pos hM, hmax, if_neg (not_le.mpr hrlt),
            List.find?_cons_of_pos]
          · rfl
          · exact beq_self_eq_true _
        · have hMlt : ratioOf itv a b < maxRatioOf rest a b := not_le.mp hM
          have hmax : max (ratioOf itv a b) (maxRatioOf rest a b) =
              maxRatioOf rest a b := max_eq_right hMlt.le
          rw [if_neg hM, hmax,
            if_neg (not_le.mpr (lt_trans hrlt hMlt)),
            List.find?_cons_of_neg]
          simp only [beq_iff_eq]
          exact ne_of_lt hMlt

theorem maxRatioOf_eq_zero {diar : List DiarInterval} {a b : ℚ}
    (h : ∀ itv ∈ diar, overlapLen itv a b ≤ 0) :
    maxRatioOf diar a b = 0 := by
  induction diar with
  | nil => rfl
  | cons itv rest ih =>
      rw [maxRatioOf_cons, ratioOf_of_nonpos (h itv (by simp)),
        ih (fun i hi => h i (List.mem_cons_of_mem _ hi))]
      exact max_self 0

/-- C1: for a positive-duration segment the alignment loop assigns the
label of the first-seen diarization track attaining the highest overlap
ratio, and none when the overlap with every track is zero;
`align_with_transcript` writes exactly this label into each segment, and
on the scenario diarization [(0,6,S1),(6,20,S2)] the segment (4,10) is
assigned S2. -/
theorem alignment_assigns_first_max_ratio (diar : List DiarInterval)
    (a b : ℚ) (_h : 0 < b - a) :
    bestSpeaker diar a b = specLabel diar a b ∧
    ((∀ itv ∈ diar, overlapLen itv a b ≤ 0) → bestSpeaker diar a b = none) ∧
    (∀ segs : List TranscriptSegment,
      (align_with_transcript diar segs).map TranscriptSegment.speaker_label =
        segs.map fun s => bestSpeaker diar s.start_time s.end_time) ∧
    bestSpeaker scenarioDiar 4 10 = some "S2" := by
  have hchar : bestSpeaker diar a b = specLabel diar a b := by
    unfold bestSpeaker specLabel
    rw [alignFold_eq a b diar none 0 (le_refl 0)]
    by_cases hM : 0 < maxRatioOf diar a b
    · rw [if_neg (not_le.mpr hM), if_pos hM]
    · rw [if_pos (not_lt.mp hM), if_neg hM]
  refine ⟨hchar, ?_, ?_, ?_⟩
  · intro hall
    rw [hchar]
    unfold specLabel
    rw [maxRatioOf_eq_zero hall, if_neg (lt_irrefl 0)]
  · intro segs
    unfold align_with_transcript
    rw [List.map_map]
    rfl
  · norm_num [bestSpeaker, alignFold, overlapLen, scenarioDiar]

/-- C1 witness: the scenario segment (4,10) has positive duration and is
assigned the label S2. -/
theorem alignment_assigns_first_max_ratio_witness :
    (0 < (10 : ℚ) - 4) ∧ bestSpeaker scenarioDiar 4 10 = some "S2" :=
  ⟨by norm_num,
    (alignment_assigns_first_max_ratio scenarioDiar 4 10 (by norm_num)).2.2.2⟩

theorem zipWith_wavg_zero :
    ∀ xs ys : List ℚ, xs.length = ys.length →
      List.zipWith (fun n o => n * 0 + o * (1 - 0)) xs ys = ys := by
  intro xs
  induction xs with
  | nil =>
      intro ys h
      cases ys with
      | nil => rfl
      | cons y ys => simp at h
  | cons x xs ih =>
      intro ys h
      cases ys with
      | nil => simp at h
      | cons y ys =>
          simp only [List.zipWith_cons_cons, List.cons.injEq]
          exact ⟨by ring, ih ys (by simpa using h)⟩

theorem zipWith_wavg_one :
    ∀ xs ys : List ℚ, xs.length = ys.length →
      List.zipWith (fun n o => n * 1 + o * (1 - 1)) xs ys = xs := by
  intro xs
  induction xs with
  | nil =>
      intro ys h
      cases ys with
      | nil => rfl
      | cons y ys => simp at h
  | cons x xs ih =>
      intro ys h
      cases ys with
      | nil => simp at h
      | cons y ys =>
          simp only [List.zipWith_cons_cons, List.cons.injEq]
          exact ⟨by ring, ih ys (by simpa using h)⟩

/-- C5: with a stored 768-dimensional prior vector and a 768-dimensional
new vector, updating with weight w in [0,1] stores new·w + old·(1−w)
componentwise; w = 0 keeps the stored vector unchanged, w = 1 replaces it
with the new vector, and with no prior vector the new vector is stored
as-is. -/
theorem update_embedding_weighted_average (old newEmb : List ℚ) (w : ℚ)
    (hold : old.length = 768) (hnew : newEmb.length = 768)
    (h0 : 0 ≤ w) (h1 : w ≤ 1) :
    update_speaker_embedding (some old) newEmb w =
      .ok (List.zipWith (fun n o => n * w + o * (1 - w)) newEmb old) ∧
    update_speaker_embedding (some old) newEmb 0 = .ok old ∧
    update_speaker_embedding (some old) newEmb 1 = .ok newEmb ∧
    update_speaker_embedding none newEmb w = .ok newEmb := by
  have hne : old ≠ [] := by
    intro hnil
    rw [hnil] at hold
    simp at hold
  have hlen : ¬old.length ≠ newEmb.length := by rw [hold, hnew]; simp
  have hnewlen : ¬newEmb.length ≠ 768 := by rw [hnew]; simp
  refine ⟨?_, ?_, ?_, ?_⟩
  · unfold update_speaker_embedding
    rw [if_neg hnewlen, if_neg (not_not_intro ⟨h0, h1⟩)]
    simp only []
    rw [if_neg hne, if_neg hlen]
  · unfold update_speaker_embedding
    rw [if_neg hnewlen, if_neg (not_not_intro ⟨le_refl 0, by norm_num⟩)]
    simp only []
    rw [if_neg hne, if_neg hlen, zipWith_wavg_zero newEmb old (by rw [hold, hnew])]
  · unfold update_speaker_embedding
    rw [if_neg hnewlen, if_neg (not_not_intro ⟨by norm_num, le_refl 1⟩)]
    simp only []
    rw [if_neg hne, if_neg hlen, zipWith_wavg_one newEmb old (by rw [hold, hnew])]
  · unfold update_speaker_embedding
    rw [if_neg hnewlen, if_neg (not_not_intro ⟨h0, h1⟩)]

/-- C5 witness: updating the all-ones 768-vector with the all-twos
768-vector at weight 1/2. -/
theorem update_embedding_weighted_average_witness :
    (List.replicate 768 (1 : ℚ)).length = 768 ∧
    (List.replicate 768 (2 : ℚ)).length = 768 ∧
    (0 ≤ (1 : ℚ)/2 ∧ (1 : ℚ)/2 ≤ 1) ∧
    update_speaker_embedding (some (List.replicate 768 (1 : ℚ)))
        (List.replicate 768 2) (1/2) =
      .ok (List.zipWith (fun n o => n * (1/2) + o * (1 - 1/2))
        (List.replicate 768 (2 : ℚ)) (List.replicate 768 1)) :=
  ⟨List.length_replicate 768 1, List.length_replicate 768 2,
    ⟨by norm_num, by norm_num⟩,
    (update_embedding_weighted_average (List.replicate 768 1)
      (List.replicate 768 2) (1/2) (List.length_replicate 768 1)
      (List.length_replicate 768 2) (by norm_num) (by norm_num)).1⟩

theorem dotp_cons (x y : ℝ) (xs ys : List ℝ) :
    dotp (x :: xs) (y :: ys) = x * y + dotp xs ys := by
  simp [dotp]

theorem dotp_self_nonneg (v : List ℝ) : 0 ≤ dotp v v := by
  induction v with
  | nil => simp [dotp]
  | cons x xs ih =>
      rw [dotp_cons]
      exact add_nonneg (mul_self_nonneg x) ih

theorem dotp_self_pos {v : List ℝ} (h : ∃ x ∈ v, x ≠ 0) : 0 < dotp v v := by
  induction v with
  | nil => simp at h
  | cons x xs ih =>
      rw [dotp_cons]
      obtain ⟨y, hy, hy0⟩ := h
      rcases List.mem_cons.mp hy with rfl | hmem
      · exact add_pos_of_pos_of_nonneg (mul_self_pos.mpr hy0) (dotp_self_nonneg xs)
      · exact add_pos_of_nonneg_of_pos (mul_self_nonneg x) (ih ⟨y, hmem, hy0⟩)

theorem dotp_map_neg_right :
    ∀ v w : List ℝ, dotp v (w.map fun x => -x) = -dotp v w := by
  intro v
  induction v with
  | nil => intro w; simp [dotp]
  | cons x xs ih =>
      intro w
      cases w with
      | nil => simp [dotp]
      | cons y ys =>
          rw [List.map_cons, dotp_cons, dotp_cons, ih ys]
          ring

theorem dotp_map_neg_both :
    ∀ v w : List ℝ, dotp (v.map fun x => -x) (w.map fun x => -x) = dotp v w := by
  intro v
  induction v with
  | nil => intro w; simp [dotp]
  | cons x xs ih =>
      intro w
      cases w with
      | nil => simp [dotp]
      | cons y ys =>
          rw [List.map_cons, List.map_cons, dotp_cons, dotp_cons, ih ys]
          ring

theorem norm2_map_neg (v : List ℝ) : norm2 (v.map fun x => -x) = norm2 v := by
  unfold norm2
  rw [dotp_map_neg_both]

theorem norm2_mul_self (v : List ℝ) : norm2 v * norm2 v = dotp v v :=
  Real.mul_self_sqrt (dotp_self_nonneg v)

/-- C6: for equal-length vectors the similarity is the cosine
dot(a,b)/(‖a‖·‖b‖) clamped into [0,1] with zero-norm inputs yielding 0;
self-similarity of a non-zero vector is 1 and similarity against the
negated vector is 0 after clamping. -/
theorem similarity_cosine_clamped :
    (∀ v w : List ℝ, v.length = w.length →
      calculate_similarity v w =
        if norm2 v = 0 ∨ norm2 w = 0 then 0
        else max 0 (min 1 (dotp v w / (norm2 v * norm2 w)))) ∧
    (∀ v : List ℝ, (∃ x ∈ v, x ≠ 0) → calculate_similarity v v = 1) ∧
    (∀ v : List ℝ, (∃ x ∈ v, x ≠ 0) →
      calculate_similarity v (v.map fun x => -x) = 0) ∧
    (∀ v w : List ℝ, norm2 v = 0 → calculate_similarity v w = 0) := by
  refine ⟨?_, ?_, ?_, ?_⟩
  · intro v w hl
    unfold calculate_similarity
    rw [if_neg (not_not_intro hl)]
  · intro v hv
    have hpos := dotp_self_pos hv
    have hn : (0 : ℝ) < norm2 v := Real.sqrt_pos.mpr hpos
    unfold calculate_similarity
    rw [if_neg (not_not_intro rfl),
      if_neg (by push_neg; exact ⟨ne_of_gt hn, ne_of_gt hn⟩),
      norm2_mul_self, div_self (ne_of_gt hpos)]
    norm_num
  · intro v hv
    have hpos := dotp_self_pos hv
    have hn : (0 : ℝ) < norm2 v := Real.sqrt_pos.mpr hpos
    unfold calculate_similarity
    rw [if_neg (not_not_intro (List.length_map v _).symm),
      if_neg (by push_neg; rw [norm2_map_neg]; exact ⟨ne_of_gt hn, ne_of_gt hn⟩),
      dotp_map_neg_right, norm2_map_neg, norm2_mul_self]
    have hneg : -dotp v v / dotp v v < 0 :=
      div_neg_of_neg_of_pos (neg_lt_zero.mpr hpos) hpos
    rw [min_eq_right (le_of_lt (lt_of_lt_of_le hneg zero_le_one)),
      max_eq_left (le_of_lt hneg)]
  · intro v w h0
    unfold calculate_similarity
    by_cases hl : v.length ≠ w.length
    · rw [if_pos hl]
    · rw [if_neg hl, if_pos (Or.inl h0)]

/-- C6 witness: the one-element vector [1] has self-similarity 1 and
similarity 0 against its negation. -/
theorem similarity_cosine_clamped_witness :
    (∃ x ∈ [(1 : ℝ)], x ≠ 0) ∧
    calculate_similarity [(1 : ℝ)] [(1 : ℝ)] = 1 ∧
    calculate_similarity [(1 : ℝ)] (([(1 : ℝ)]).map fun x => -x) = 0 :=
  ⟨⟨1, by simp, one_ne_zero⟩,
    similarity_cosine_clamped.2.1 [(1 : ℝ)] ⟨1, by simp, one_ne_zero⟩,
    similarity_cosine_clamped.2.2.1 [(1 : ℝ)] ⟨1, by simp, one_ne_zero⟩⟩

/-- C10: calculate_similarity is total in the model; mismatched vector
lengths (the caught np.dot failure) return 0.0, which coincides with the
similarity of genuinely orthogonal equal-length vectors. -/
theorem similarity_mismatch_returns_zero :
    (∀ v w : List ℝ, v.length ≠ w.length → calculate_similarity v w = 0) ∧
    calculate_similarity [(1 : ℝ), 0] [(0 : ℝ), 1] = 0 := by
  constructor
  · intro v w h
    unfold calculate_similarity
    rw [if_pos h]
  · have hdot : dotp [(1 : ℝ), 0] [(0 : ℝ), 1] = 0 := by norm_num [dotp]
    have hn1 : norm2 [(1 : ℝ), 0] = 1 := by
      have hd : dotp [(1 : ℝ), 0] [(1 : ℝ), 0] = 1 := by norm_num [dotp]
      rw [norm2, hd, Real.sqrt_one]
    have hn2 : norm2 [(0 : ℝ), 1] = 1 := by
      have hd : dotp [(0 : ℝ), 1] [(0 : ℝ), 1] = 1 := by norm_num [dotp]
      rw [norm2, hd, Real.sqrt_one]
    unfold calculate_similarity
    rw [if_neg (by simp), if_neg (by rw [hn1, hn2]; norm_num),
      hdot, hn1, hn2]
    norm_num

/-- C10 witness: a 1-element vector against the empty vector returns 0. -/
theorem similarity_mismatch_returns_zero_witness :
    ([(1 : ℝ)].length ≠ ([] : List ℝ).length) ∧
    calculate_similarity [(1 : ℝ)] [] = 0 :=
  ⟨by simp, similarity_mismatch_returns_zero.1 [(1 : ℝ)] [] (by simp)⟩

/-- C9: when transcription and diarization succeed but embedding
extraction fails, process_audio still returns a result; the result's
speaker_embeddings map is empty and every assembled speaker carries no
embedding, rather than a substituted default. -/
theorem pipeline_embedding_failure_degrades (meeting : String)
    (tsegs : List TranscriptSegment) (diar : List DiarInterval)
    (e : StageError) :
    ∃ r : PipelineResult,
      process_audio meeting (.ok tsegs) (.ok diar) (.error e) = .ok r ∧
      r.speaker_embeddings = [] ∧
      ∀ sp ∈ r.speakers, sp.embedding = none := by
  refine ⟨_, rfl, rfl, ?_⟩
  intro sp hsp
  simp only [create_speaker_objects, List.mem_map] at hsp
  obtain ⟨label, _, rfl⟩ := hsp
  rfl

theorem intercalate_single (s a : Text) : List.intercalate s [a] = a := by
  simp [List.intercalate, List.intersperse_singleton]

theorem intercalate_cons_ne (s a : Text) {l : List Text} (h : l ≠ []) :
    List.intercalate s (a :: l) = a ++ s ++ List.intercalate s l := by
  cases l with
  | nil => exact absurd rfl h
  | cons b m =>
      simp [List.intercalate, List.intersperse_cons_cons, List.flatten_cons,
        List.append_assoc]

theorem intercalate_append_ne (s : Text) {A B : List Text}
    (hA : A ≠ []) (hB : B ≠ []) :
    List.intercalate s (A ++ B) =
      List.intercalate s A ++ s ++ List.intercalate s B := by
  induction A with
  | nil => exact absurd rfl hA
  | cons a A ih =>
      by_cases hA' : A = []
      · subst hA'
        rw [List.singleton_append, intercalate_cons_ne s a hB, intercalate_single]
      · have hAB : A ++ B ≠ [] := by
          intro hx
          exact hA' (List.append_eq_nil.mp hx).1
        rw [List.cons_append, intercalate_cons_ne s a hAB, ih hA',
          intercalate_cons_ne s a hA']
        simp [List.append_assoc]

theorem intercalate_group (s : Text) (X : List Text) {B : List Text}
    (hB : B ≠ []) (Y : List Text) :
    List.intercalate s (X ++ List.intercalate s B :: Y) =
      List.intercalate s (X ++ (B ++ Y)) := by
  induction X with
  | nil =>
      simp only [List.nil_append]
      cases Y with
      | nil =>
          rw [List.append_nil, intercalate_single]
      | cons y ys =>
          rw [intercalate_cons_ne s _ (List.cons_ne_nil y ys),
            intercalate_append_ne s hB (List.cons_ne_nil y ys)]
  | cons x X ih =>
      have h1 : X ++ List.intercalate s B :: Y ≠ [] := by simp
      have h2 : X ++ (B ++ Y) ≠ [] := by
        intro hx
        exact hB (List.append_eq_nil.mp (List.append_eq_nil.mp hx).2).1
      rw [List.cons_append, intercalate_cons_ne s x h1, List.cons_append,
        intercalate_cons_ne s x h2, ih]

theorem intercalate_join_head (s a b : Text) (Y : List Text) :
    List.intercalate s ((a ++ s ++ b) :: Y) = List.intercalate s (a :: b :: Y) := by
  cases Y with
  | nil =>
      rw [intercalate_single, intercalate_cons_ne s a (List.cons_ne_nil b []),
        intercalate_single]
  | cons y ys =>
      rw [intercalate_cons_ne s _ (List.cons_ne_nil y ys),
        intercalate_cons_ne s a (List.cons_ne_nil b (y :: ys)),
        intercalate_cons_ne s b (List.cons_ne_nil y ys)]
      simp [List.append_assoc]

theorem lstrip_eq_self_iff (t : Text) :
    lstrip t = t ↔ ∀ c ∈ t.head?, c.isWhitespace = false := by
  cases t with
  | nil => simp [lstrip]
  | cons c r =>
      constructor
      · intro h x hx
        have hxc : c = x := by simpa [Option.mem_def] using hx
        subst hxc
        by_contra hws
        rw [Bool.not_eq_false] at hws
        unfold lstrip at h
        rw [List.dropWhile_cons, if_pos hws] at h
        have hlen := congrArg List.length h
        have hle := (List.dropWhile_suffix (l := r) Char.isWhitespace).sublist.length_le
        rw [hlen] at hle
        simp at hle
      · intro h
        have hc : c.isWhitespace = false := h c rfl
        unfold lstrip
        rw [List.dropWhile_cons, if_neg (by rw [hc]; exact Bool.false_ne_true)]

theorem rstrip_eq_self_iff (t : Text) :
    rstrip t = t ↔ ∀ c ∈ t.getLast?, c.isWhitespace = false := by
  have hrd : rstrip t = List.rdropWhile Char.isWhitespace t := rfl
  rw [hrd, List.rdropWhile_eq_self_iff]
  constructor
  · intro h c hc
    obtain ⟨hne, rfl⟩ := List.mem_getLast?_eq_getLast hc
    have := h hne
    rwa [Bool.not_eq_true] at this
  · intro h hl
    have := h (t.getLast hl) (by rw [List.getLast?_eq_getLast t hl]; rfl)
    rw [this]
    exact Bool.false_ne_true

theorem pyStrip_eq_self_iff (t : Text) :
    pyStrip t = t ↔ (lstrip t = t ∧ rstrip t = t) := by
  constructor
  · intro h
    have hrlen : ∀ u : Text, (rstrip u).length ≤ u.length := by
      intro u
      have := (List.dropWhile_suffix (l := u.reverse) Char.isWhitespace).sublist.length_le
      simpa [rstrip] using this
    have hllen : (lstrip t).length ≤ t.length :=
      (List.dropWhile_suffix Char.isWhitespace).sublist.length_le
    have he : (pyStrip t).length = t.length := by rw [h]
    have h2 : (lstrip t).length = t.length := by
      have := hrlen (lstrip t)
      unfold pyStrip at he
      omega
    have hl : lstrip t = t :=
      (List.dropWhile_suffix Char.isWhitespace).sublist.eq_of_length h2
    refine ⟨hl, ?_⟩
    unfold pyStrip at h
    rw [hl] at h
    exact h
  · intro ⟨hl, hr⟩
    unfold pyStrip
    rw [hl, hr]

theorem pyStrip_join {a b : Text} (ha : a ≠ []) (hsa : pyStrip a = a)
    (hb : b ≠ []) (hsb : pyStrip b = b) :
    pyStrip (a ++ ' ' :: b) = a ++ ' ' :: b := by
  obtain ⟨hla, hra⟩ := (pyStrip_eq_self_iff a).mp hsa
  obtain ⟨hlb, hrb⟩ := (pyStrip_eq_self_iff b).mp hsb
  apply (pyStrip_eq_self_iff _).mpr
  constructor
  · apply (lstrip_eq_self_iff _).mpr
    intro c hc
    rw [List.head?_append_of_ne_nil a ha] at hc
    exact (lstrip_eq_self_iff a).mp hla c hc
  · apply (rstrip_eq_self_iff _).mpr
    intro c hc
    rw [List.getLast?_append_of_ne_nil a (List.cons_ne_nil ' ' b),
      show (' ' :: b) = [' '] ++ b from rfl,
      List.getLast?_append_of_ne_nil [' '] hb] at hc
    exact (rstrip_eq_self_iff b).mp hrb c hc

theorem mergeShortLoop_ne_nil (cfg : ChunkingConfig) :
    ∀ (rest : List TranscriptSegment) (cur : TranscriptSegment),
      mergeShortLoop cfg cur rest ≠ [] := by
  intro rest
  induction rest with
  | nil => intro cur; exact List.cons_ne_nil cur []
  | cons next rest ih =>
      intro cur
      rw [mergeShortLoop]
      by_cases hm : cur.speaker_id = next.speaker_id ∧
          cur.speaker_label = next.speaker_label ∧
          cur.end_time - cur.start_time < cfg.min_chunk_duration ∧
          next.end_time - cur.start_time ≤ cfg.max_chunk_duration
      · rw [if_pos hm]; exact ih _
      · rw [if_neg hm]; exact List.cons_ne_nil _ _

theorem mergeShortLoop_texts (cfg : ChunkingConfig) :
    ∀ (rest : List TranscriptSegment) (cur : TranscriptSegment),
      cur.text ≠ [] → pyStrip cur.text = cur.text →
      (∀ s ∈ rest, s.text ≠ [] ∧ pyStrip s.text = s.text) →
      List.intercalate [' ']
          ((mergeShortLoop cfg cur rest).map TranscriptSegment.text) =
        List.intercalate [' '] (cur.text :: rest.map TranscriptSegment.text) := by
  intro rest
  induction rest with
  | nil => intro cur _ _ _; rfl
  | cons next rest ih =>
      intro cur hne hstrip hall
      obtain ⟨hnextne, hnextstrip⟩ := hall next (by simp)
      have hallrest : ∀ s ∈ rest, s.text ≠ [] ∧ pyStrip s.text = s.text :=
        fun s hs => hall s (List.mem_cons_of_mem _ hs)
      rw [mergeShortLoop]
      by_cases hm : cur.speaker_id = next.speaker_id ∧
          cur.speaker_label = next.speaker_label ∧
          cur.end_time - cur.start_time < cfg.min_chunk_duration ∧
          next.end_time - cur.start_time ≤ cfg.max_chunk_duration
      · rw [if_pos hm]
        have hjoin : pyStrip (cur.text ++ ' ' :: next.text) =
            cur.text ++ ' ' :: next.text :=
          pyStrip_join hne hstrip hnextne hnextstrip
        rw [ih _ (by show pyStrip _ ≠ []; rw [hjoin]; simp)
          (by show pyStrip (pyStrip _) = pyStrip _; rw [hjoin, hjoin]) hallrest]
        show List.intercalate [' '] (pyStrip (cur.text ++ ' ' :: next.text) :: _) = _
        rw [hjoin, show cur.text ++ ' ' :: next.text =
          cur.text ++ [' '] ++ next.text by simp, intercalate_join_head,
          List.map_cons]
      · rw [if_neg hm]
        have hmapne : (mergeShortLoop cfg next rest).map TranscriptSegment.text ≠ [] := by
          intro hx
          exact mergeShortLoop_ne_nil cfg rest next (List.map_eq_nil_iff.mp hx)
        rw [List.map_cons, intercalate_cons_ne _ _ hmapne,
          ih next hnextne hnextstrip hallrest,
          ← intercalate_cons_ne _ _ (List.cons_ne_nil _ _), List.map_cons]

theorem mergeShortLoop_durations (cfg : ChunkingConfig) :
    ∀ (rest : List TranscriptSegment) (cur : TranscriptSegment),
      cur.end_time - cur.start_time ≤ cfg.max_chunk_duration →
      (∀ s ∈ rest, s.end_time - s.start_time ≤ cfg.max_chunk_duration) →
      ∀ m ∈ mergeShortLoop cfg cur rest,
        m.end_time - m.start_time ≤ cfg.max_chunk_duration := by
  intro rest
  induction rest with
  | nil =>
      intro cur hcur _ m hm
      rw [List.mem_singleton.mp hm]
      exact hcur
  | cons next rest ih =>
      intro cur hcur hall
      rw [mergeShortLoop]
      by_cases hm : cur.speaker_id = next.speaker_id ∧
          cur.speaker_label = next.speaker_label ∧
          cur.end_time - cur.start_time < cfg.min_chunk_duration ∧
          next.end_time - cur.start_time ≤ cfg.max_chunk_duration
      · rw [if_pos hm]
        exact ih _ hm.2.2.2 (fun s hs => hall s (List.mem_cons_of_mem _ hs))
      · rw [if_neg hm]
        intro m hmem
        rcases List.mem_cons.mp hmem with rfl | hmem
        · exact hcur
        · exact ih next (hall next (by simp))
            (fun s hs => hall s (List.mem_cons_of_mem _ hs)) m hmem

/-- The accumulator is coherent: an empty text list means no open chunk. -/
def chunkInv (st : ChunkState) : Prop :=
  st.current_texts = [] ↔ st.current_start = none

theorem chunkStep_inv (cfg : ChunkingConfig) (meeting user : String)
    (st : ChunkState) (seg : TranscriptSegment) :
    chunkInv (chunkStep cfg meeting user st seg) := by
  unfold chunkStep pushSeg
  cases h : (if shouldFinalize cfg st seg then flushState meeting user st
      else st).current_start with
  | none => simp [chunkInv, h]
  | some s => simp [chunkInv, h]

theorem foldl_chunkInv (cfg : ChunkingConfig) (meeting user : String) :
    ∀ (segs : List TranscriptSegment) (st : ChunkState), chunkInv st →
      chunkInv (segs.foldl (chunkStep cfg meeting user) st) := by
  intro segs
  induction segs with
  | nil => intro st h; exact h
  | cons seg rest ih =>
      intro st _
      rw [List.foldl_cons]
      exact ih _ (chunkStep_inv cfg meeting user st seg)

theorem shouldFinalize_texts_ne_nil {cfg : ChunkingConfig} {st : ChunkState}
    {seg : TranscriptSegment} (h : shouldFinalize cfg st seg = true) :
    st.current_texts ≠ [] := by
  intro hnil
  unfold shouldFinalize at h
  rw [hnil] at h
  simp at h

theorem shouldFinalize_false_not_exceed {cfg : ChunkingConfig} {st : ChunkState}
    {seg : TranscriptSegment} {s : ℚ}
    (h : shouldFinalize cfg st seg = false)
    (htexts : st.current_texts ≠ [])
    (hs : st.current_start = some s) :
    seg.end_time - s ≤ cfg.max_chunk_duration := by
  unfold shouldFinalize at h
  have hie : st.current_texts.isEmpty = false := by
    cases hx : st.current_texts with
    | nil => exact absurd hx htexts
    | cons a l => rfl
  rw [hie] at h
  simp only [Bool.not_false, Bool.true_and, Bool.or_eq_false_iff] at h
  have hwe := h.1.2
  unfold wouldExceedMax at hwe
  rw [hs] at hwe
  rw [decide_eq_false_iff_not] at hwe
  exact le_of_not_lt hwe

theorem chunkFold_texts (cfg : ChunkingConfig) (meeting user : String) :
    ∀ (segs : List TranscriptSegment) (st : ChunkState), chunkInv st →
      List.intercalate [' ']
          (((segs.foldl (chunkStep cfg meeting user) st).chunks.map
              TranscriptChunk.text) ++
            (segs.foldl (chunkStep cfg meeting user) st).current_texts) =
        List.intercalate [' ']
          ((st.chunks.map TranscriptChunk.text) ++
            (st.current_texts ++ segs.map TranscriptSegment.text)) := by
  intro segs
  induction segs with
  | nil => intro st _; simp
  | cons seg rest ih =>
      intro st hinv
      rw [List.foldl_cons, ih _ (chunkStep_inv cfg meeting user st seg)]
      unfold chunkStep
      by_cases hsf : shouldFinalize cfg st seg = true
      · rw [if_pos hsf]
        have htexts : st.current_texts ≠ [] := shouldFinalize_texts_ne_nil hsf
        show List.intercalate [' ']
            ((pushSeg (flushState meeting user st) seg).chunks.map _ ++
              ((pushSeg (flushState meeting user st) seg).current_texts ++ _)) = _
        have hflush : (flushState meeting user st).current_start = none := rfl
        simp only [pushSeg, flushState, mkCurrentChunk, hflush, List.map_append,
          List.map_cons, List.map_nil, List.nil_append, List.append_assoc,
          List.singleton_append]
        rw [intercalate_group [' '] _ htexts]
      · rw [if_neg hsf]
        cases hstart : st.current_start with
        | none =>
            have hT : st.current_texts = [] := hinv.mpr hstart
            simp [pushSeg, hstart, hT, List.append_assoc]
        | some s =>
            simp [pushSeg, hstart, List.append_assoc]

theorem create_chunks_texts (cfg : ChunkingConfig) (meeting user : String)
    (segs : List TranscriptSegment) :
    List.intercalate [' ']
        ((create_chunks cfg meeting user segs).map TranscriptChunk.text) =
      List.intercalate [' '] (segs.map TranscriptSegment.text) := by
  have hinv0 : chunkInv initChunkState := by simp [chunkInv, initChunkState]
  have hfold := chunkFold_texts cfg meeting user segs initChunkState hinv0
  have hinv := foldl_chunkInv cfg meeting user segs initChunkState hinv0
  unfold create_chunks
  rw [show initChunkState.chunks = [] from rfl,
    show initChunkState.current_texts = [] from rfl] at hfold
  simp only [List.map_nil, List.nil_append] at hfold
  by_cases hcond : (segs.foldl (chunkStep cfg meeting user)
      initChunkState).current_texts ≠ [] ∧
      (segs.foldl (chunkStep cfg meeting user) initChunkState).current_start ≠ none
  · rw [if_pos hcond, List.map_append]
    show List.intercalate [' ']
        (_ ++ ([mkCurrentChunk meeting user _].map TranscriptChunk.text)) = _
    simp only [List.map_cons, List.map_nil, mkCurrentChunk]
    rw [show ∀ x : List Text, x ++ [List.intercalate [' ']
        (segs.foldl (chunkStep cfg meeting user) initChunkState).current_texts] =
        x ++ List.intercalate [' ']
        (segs.foldl (chunkStep cfg meeting user) initChunkState).current_texts :: []
        from fun x => rfl,
      intercalate_group [' '] _ hcond.1, List.append_nil]
    exact hfold
  · rw [if_neg hcond]
    have hT : (segs.foldl (chunkStep cfg meeting user)
        initChunkState).current_texts = [] := by
      by_contra hne
      exact hcond ⟨hne, fun hn => hne (hinv.mpr hn)⟩
    rw [← hfold, hT, List.append_nil]

/-- Over-approximation invariant for the duration bound: every finalized
chunk and the open accumulation stay within the maximum duration. -/
def durInv (maxd : ℚ) (st : ChunkState) : Prop :=
  (∀ c ∈ st.chunks, c.end_time - c.start_time ≤ maxd) ∧
  (∀ s, st.current_start = some s → st.current_end - s ≤ maxd) ∧
  chunkInv st

theorem pushSeg_durInv {maxd : ℚ} {st : ChunkState} {seg : TranscriptSegment}
    (hchunks : ∀ c ∈ st.chunks, c.end_time - c.start_time ≤ maxd)
    (hok : ∀ s, st.current_start = some s → seg.end_time - s ≤ maxd)
    (hnone : st.current_start = none → seg.end_time - seg.start_time ≤ maxd) :
    durInv maxd (pushSeg st seg) := by
  unfold pushSeg
  cases hstart : st.current_start with
  | none =>
      simp only [hstart]
      refine ⟨hchunks, ?_, ?_⟩
      · intro s hs
        have : seg.start_time = s := by simpa using hs
        rw [← this]
        exact hnone hstart
      · simp [chunkInv]
  | some s0 =>
      simp only [hstart]
      refine ⟨hchunks, ?_, ?_⟩
      · intro s hs
        have : s0 = s := by simpa using hs
        rw [← this]
        exact hok s0 hstart
      · simp [chunkInv]

theorem chunkStep_durInv (cfg : ChunkingConfig) (meeting user : String)
    {st : ChunkState} {seg : TranscriptSegment}
    (h : durInv cfg.max_chunk_duration st)
    (hseg : seg.end_time - seg.start_time ≤ cfg.max_chunk_duration) :
    durInv cfg.max_chunk_duration (chunkStep cfg meeting user st seg) := by
  obtain ⟨hchunks, hcur, hinv⟩ := h
  unfold chunkStep
  by_cases hsf : shouldFinalize cfg st seg = true
  · rw [if_pos hsf]
    have htexts : st.current_texts ≠ [] := shouldFinalize_texts_ne_nil hsf
    obtain ⟨s, hs⟩ : ∃ s, st.current_start = some s := by
      cases hstart : st.current_start with
      | none => exact absurd (hinv.mpr hstart) htexts
      | some s => exact ⟨s, rfl⟩
    apply pushSeg_durInv
    · intro c hc
      rcases List.mem_append.mp hc with hmem | hmem
      · exact hchunks c hmem
      · rw [List.mem_singleton.mp hmem]
        show st.current_end - st.current_start.getD 0 ≤ _
        rw [hs]
        exact hcur s hs
    · intro s' hs'
      exact absurd hs' (by simp [flushState])
    · intro _
      exact hseg
  · rw [if_neg (by simpa using hsf)]
    have hsf' : shouldFinalize cfg st seg = false := by
      cases hx : shouldFinalize cfg st seg with
      | false => rfl
      | true => exact absurd hx hsf
    apply pushSeg_durInv hchunks
    · intro s hs
      have htexts : st.current_texts ≠ [] := fun hnil =>
        (by simp [hinv.mp hnil] at hs)
      exact shouldFinalize_false_not_exceed hsf' htexts hs
    · intro _
      exact hseg

theorem foldl_durInv (cfg : ChunkingConfig) (meeting user : String) :
    ∀ (segs : List TranscriptSegment) (st : ChunkState),
      durInv cfg.max_chunk_duration st →
      (∀ s ∈ segs, s.end_time - s.start_time ≤ cfg.max_chunk_duration) →
      durInv cfg.max_chunk_duration
        (segs.foldl (chunkStep cfg meeting user) st) := by
  intro segs
  induction segs with
  | nil => intro st h _; exact h
  | cons seg rest ih =>
      intro st h hall
      rw [List.foldl_cons]
      exact ih _ (chunkStep_durInv cfg meeting user h (hall seg (by simp)))
        (fun s hs => hall s (List.mem_cons_of_mem _ hs))

theorem chunk_overlong_eval :
    chunk_segments defaultChunkingConfig "m" "u" [overlongSeg] =
      [⟨0, "m", "u", 0, 20, ['h', 'i'], none, none⟩] := by
  norm_num [chunk_segments, merge_short_segments, mergeShortLoop, create_chunks,
    List.foldl_cons, List.foldl_nil, chunkStep, shouldFinalize, speakerChanged,
    wouldExceedMax, reachedTarget, pushSeg, flushState, mkCurrentChunk,
    initChunkState, overlongSeg, defaultChunkingConfig, List.intercalate,
    List.intersperse]
  simp

/-- C7 counterexample: a single 20-second segment becomes a single chunk
of duration 20 s, which exceeds the default 12 s maximum chunk duration. -/
theorem chunker_duration_counterexample :
    ¬ ∀ c ∈ chunk_segments defaultChunkingConfig "m" "u" [overlongSeg],
        c.end_time - c.start_time ≤ defaultChunkingConfig.max_chunk_duration := by
  intro hall
  have hx := hall ⟨0, "m", "u", 0, 20, ['h', 'i'], none, none⟩
    (by rw [chunk_overlong_eval]; simp)
  norm_num [defaultChunkingConfig] at hx

/-- C7 (amended): when every input segment's own duration is within the
configured maximum chunk duration, no emitted chunk exceeds that maximum;
a chunk can exceed it only by inheriting a single over-long segment. -/
theorem chunker_duration_bounded (cfg : ChunkingConfig) (meeting user : String)
    (segs : List TranscriptSegment)
    (hall : ∀ s ∈ segs, s.end_time - s.start_time ≤ cfg.max_chunk_duration) :
    ∀ c ∈ chunk_segments cfg meeting user segs,
      c.end_time - c.start_time ≤ cfg.max_chunk_duration := by
  intro c hc
  unfold chunk_segments at hc
  by_cases hnil : segs = []
  · rw [if_pos hnil] at hc
    simp at hc
  · rw [if_neg hnil] at hc
    have hmerged : ∀ s ∈ merge_short_segments cfg segs,
        s.end_time - s.start_time ≤ cfg.max_chunk_duration := by
      cases hsegs : segs with
      | nil => exact absurd hsegs hnil
      | cons s0 rest =>
          subst hsegs
          show ∀ s ∈ mergeShortLoop cfg s0 rest, _
          exact mergeShortLoop_durations cfg rest s0 (hall s0 (by simp))
            (fun s hs => hall s (List.mem_cons_of_mem _ hs))
    have hinit : durInv cfg.max_chunk_duration initChunkState := by
      refine ⟨?_, ?_, ?_⟩ <;> simp [initChunkState, chunkInv]
    have hfin := foldl_durInv cfg meeting user (merge_short_segments cfg segs)
      initChunkState hinit hmerged
    simp only [create_chunks] at hc
    by_cases hcond : ((merge_short_segments cfg segs).foldl
        (chunkStep cfg meeting user) initChunkState).current_texts ≠ [] ∧
        ((merge_short_segments cfg segs).foldl
          (chunkStep cfg meeting user) initChunkState).current_start ≠ none
    · rw [if_pos hcond] at hc
      rcases List.mem_append.mp hc with hmem | hmem
      · exact hfin.1 c hmem
      · rw [List.mem_singleton.mp hmem]
        obtain ⟨s, hs⟩ : ∃ s, ((merge_short_segments cfg segs).foldl
            (chunkStep cfg meeting user) initChunkState).current_start = some s := by
          cases hstart : ((merge_short_segments cfg segs).foldl
              (chunkStep cfg meeting user) initChunkState).current_start with
          | none => exact absurd hstart hcond.2
          | some s => exact ⟨s, rfl⟩
        show ((merge_short_segments cfg segs).foldl
            (chunkStep cfg meeting user) initChunkState).current_end -
          ((merge_short_segments cfg segs).foldl
            (chunkStep cfg meeting user) initChunkState).current_start.getD 0 ≤ _
        rw [hs]
        exact hfin.2.1 s hs
    · rw [if_neg hcond] at hc
      exact hfin.1 c hc

/-- C7 witness: a single 5-second segment satisfies the duration
hypothesis and yields only chunks within the 12 s maximum. -/
theorem chunker_duration_bounded_witness :
    (∀ s ∈ [shortSeg],
      s.end_time - s.start_time ≤ defaultChunkingConfig.max_chunk_duration) ∧
    ∀ c ∈ chunk_segments defaultChunkingConfig "m" "u" [shortSeg],
      c.end_time - c.start_time ≤ defaultChunkingConfig.max_chunk_duration := by
  have hp : ∀ s ∈ [shortSeg],
      s.end_time - s.start_time ≤ defaultChunkingConfig.max_chunk_duration := by
    intro s hs
    rw [List.mem_singleton.mp hs]
    norm_num [shortSeg, defaultChunkingConfig]
  exact ⟨hp, chunker_duration_bounded defaultChunkingConfig "m" "u" [shortSeg] hp⟩

theorem chunk_padded_eval :
    chunk_segments defaultChunkingConfig "m" "u" paddedSegs =
      [⟨0, "m", "u", 0, 2, ['A', ' ', 'B'], none, none⟩] := by
  norm_num [chunk_segments, merge_short_segments, mergeShortLoop, create_chunks,
    List.foldl_cons, List.foldl_nil, chunkStep, shouldFinalize, speakerChanged,
    wouldExceedMax, reachedTarget, pushSeg, flushState, mkCurrentChunk,
    initChunkState, paddedSegs, defaultChunkingConfig, List.intercalate,
    List.intersperse, pyStrip, lstrip, rstrip, confOr1]
  simp +decide [List.dropWhile_cons]

/-- C8 counterexample: with segment texts " A" and "B" the merge step's
strip removes the leading space, so the joined chunk texts no longer
reconstruct the space-joined segment texts. -/
theorem chunker_text_counterexample :
    List.intercalate [' ']
        ((chunk_segments defaultChunkingConfig "m" "u" paddedSegs).map
          TranscriptChunk.text) ≠
      List.intercalate [' '] (paddedSegs.map TranscriptSegment.text) := by
  rw [chunk_padded_eval]
  decide

/-- C8 (amended): when every segment text is nonempty and invariant under
strip (no leading or trailing whitespace), the chunk texts joined with
single spaces reconstruct the segment texts joined with single spaces. -/
theorem chunker_reconstructs_spaced_text (cfg : ChunkingConfig)
    (meeting user : String) (segs : List TranscriptSegment)
    (hclean : ∀ s ∈ segs, s.text ≠ [] ∧ pyStrip s.text = s.text) :
    List.intercalate [' ']
        ((chunk_segments cfg meeting user segs).map TranscriptChunk.text) =
      List.intercalate [' '] (segs.map TranscriptSegment.text) := by
  unfold chunk_segments
  by_cases hnil : segs = []
  · rw [if_pos hnil, hnil]
    rfl
  · rw [if_neg hnil, create_chunks_texts]
    cases hsegs : segs with
    | nil => exact absurd hsegs hnil
    | cons s0 rest =>
        subst hsegs
        show List.intercalate [' '] ((mergeShortLoop cfg s0 rest).map _) = _
        rw [mergeShortLoop_texts cfg rest s0 (hclean s0 (by simp)).1
          (hclean s0 (by simp)).2
          (fun s hs => hclean s (List.mem_cons_of_mem _ hs)), List.map_cons]

/-- C8 witness: a single clean-text segment reconstructs exactly. -/
theorem chunker_reconstructs_spaced_text_witness :
    (∀ s ∈ [shortSeg], s.text ≠ [] ∧ pyStrip s.text = s.text) ∧
    List.intercalate [' ']
        ((chunk_segments defaultChunkingConfig "m" "u" [shortSeg]).map
          TranscriptChunk.text) =
      List.intercalate [' '] ([shortSeg].map TranscriptSegment.text) := by
  have hp : ∀ s ∈ [shortSeg], s.text ≠ [] ∧ pyStrip s.text = s.text := by
    intro s hs
    rw [List.mem_singleton.mp hs]
    exact ⟨by simp [shortSeg], by decide⟩
  exact ⟨hp, chunker_reconstructs_spaced_text defaultChunkingConfig "m" "u"
    [shortSeg] hp⟩

end MeetingMinutes
